import Mathlib

/-!
Verification of the log parsing and correlation engine of
`src/lib/log-parser.ts` (functions `cleanLogContent`, `parseLogData`,
`groupEntriesByRequest`, `calculateStats`).

Strings are embedded as `List Char`.  JavaScript regular expressions used by
the source are embedded as explicit character-list matchers; every matcher
follows the concrete regex of the source (anchoring, greediness, leftmost
match, alternation order).  JavaScript numbers that can be `NaN` are embedded
as `Option Int` with `none` playing the role of `NaN`.  `Array.prototype.sort`
is embedded as a stable binary-insertion sort (elements bubble leftwards past
a neighbour exactly when the comparator on that neighbour returns a positive
value), which agrees with the ECMAScript-mandated stable sort for consistent
comparators and with the major engines on the inconsistent comparator used by
the source.  `new Date(s).getTime()` is modelled for the canonical
`YYYY-MM-DD HH:MM:SS` shape (local time taken as UTC); any other string is
given `NaN` (`none`).
-/

namespace LogLab

/-! ### Character classes (JavaScript `\s`, `\d`, `\w`, alphanumerics) -/

def isJsSpace (c : Char) : Bool :=
  c = ' ' || c = '\t' || c = '\n' || c = '\r' ||
  c = '\x0b' || c = '\x0c' || c = ' '

def isDigitCh (c : Char) : Bool := '0' ≤ c && c ≤ '9'

def isAlphaCh (c : Char) : Bool :=
  ('a' ≤ c && c ≤ 'z') || ('A' ≤ c && c ≤ 'Z')

def isAlnumCh (c : Char) : Bool := isDigitCh c || isAlphaCh c

def isWordCh (c : Char) : Bool := isAlnumCh c || c = '_'

/-- ASCII model of JavaScript `String.prototype.toUpperCase` (per character). -/
def upperCh (c : Char) : Char :=
  if 'a' ≤ c && c ≤ 'z' then Char.ofNat (c.toNat - 32) else c

def toUpperList (cs : List Char) : List Char := cs.map upperCh

/-! ### List-of-char utilities -/

/-- Source `logData.split('\n')`: always returns a non-empty list. -/
def splitNl : List Char → List (List Char)
  | [] => [[]]
  | c :: cs =>
    if c = '\n' then [] :: splitNl cs
    else
      match splitNl cs with
      | [] => [[c]]
      | l :: ls => (c :: l) :: ls

/-- Source `lines.join('\n')`. -/
def joinNl : List (List Char) → List Char
  | [] => []
  | [l] => l
  | l :: ls => l ++ '\n' :: joinNl ls

/-- JavaScript `String.prototype.trim`. -/
def trimChars (cs : List Char) : List Char :=
  ((cs.dropWhile isJsSpace).reverse.dropWhile isJsSpace).reverse

def hasPfx : List Char → List Char → Bool
  | [], _ => true
  | _ :: _, [] => false
  | p :: ps, c :: cs => p = c && hasPfx ps cs

/-- Model of `haystack.includes(needle)` on character lists. -/
def containsSub (pat : List Char) : List Char → Bool
  | [] => hasPfx pat []
  | c :: cs => hasPfx pat (c :: cs) || containsSub pat cs

def digitsToNat (ds : List Char) : Nat :=
  ds.foldl (fun a c => a * 10 + (c.toNat - 48)) 0

/-! ### Elementary consumers used by the regex embeddings -/

def expectCh (c : Char) : List Char → Option (List Char)
  | x :: xs => if x = c then some xs else none
  | [] => none

def expectSp : List Char → Option (List Char)
  | x :: xs => if isJsSpace x then some xs else none
  | [] => none

/-- Consume exactly `n` decimal digits, returning them and the rest. -/
def takeDigitsN : Nat → List Char → Option (List Char × List Char)
  | 0, cs => some ([], cs)
  | n + 1, c :: cs =>
    if isDigitCh c then (takeDigitsN n cs).map (fun p => (c :: p.1, p.2))
    else none
  | _ + 1, [] => none

/-- Consume `\d{4}-\d{2}-\d{2}\s\d{2}:\d{2}:\d{2}` (19 characters). -/
def dtCore (cs : List Char) : Option (List Char) :=
  (takeDigitsN 4 cs).bind fun p1 =>
  (expectCh '-' p1.2).bind fun r2 =>
  (takeDigitsN 2 r2).bind fun p3 =>
  (expectCh '-' p3.2).bind fun r4 =>
  (takeDigitsN 2 r4).bind fun p5 =>
  (expectSp p5.2).bind fun r6 =>
  (takeDigitsN 2 r6).bind fun p7 =>
  (expectCh ':' p7.2).bind fun r8 =>
  (takeDigitsN 2 r8).bind fun p9 =>
  (expectCh ':' p9.2).bind fun r10 =>
  (takeDigitsN 2 r10).map fun p11 => p11.2

/-! ### The pattern library of the source -/

/-- Pattern `TIMESTAMP_PATTERN = /^\[(\d{4}-\d{2}-\d{2}\s\d{2}:\d{2}:\d{2})\]/`,
returning the capture group. -/
def matchTimestamp (cs : List Char) : Option (List Char) :=
  match cs with
  | '[' :: r =>
    match dtCore r with
    | some (']' :: _) => some (r.take 19)
    | _ => none
  | _ => none

inductive LogLevel where
  | ERROR | WARN | INFO | DEBUG
deriving DecidableEq, Repr

/-- The alternation `(ERROR|WARN|INFO|DEBUG)` tried in source order. -/
def matchLevelLit (cs : List Char) : Option (LogLevel × List Char) :=
  if hasPfx ("ERROR".toList) cs then some (.ERROR, cs.drop 5)
  else if hasPfx ("WARN".toList) cs then some (.WARN, cs.drop 4)
  else if hasPfx ("INFO".toList) cs then some (.INFO, cs.drop 4)
  else if hasPfx ("DEBUG".toList) cs then some (.DEBUG, cs.drop 5)
  else none

/-- Attempt of `ENV_LEVEL_PATTERN = /\]\s+(\w+)\.(ERROR|WARN|INFO|DEBUG):/`
just after a `]`. -/
def envLevelAfterBracket (cs : List Char) : Option (List Char × LogLevel) :=
  let sp := cs.takeWhile isJsSpace
  if sp = [] then none
  else
    let r1 := cs.dropWhile isJsSpace
    let w := r1.takeWhile isWordCh
    if w = [] then none
    else
      match r1.dropWhile isWordCh with
      | '.' :: r3 =>
        match matchLevelLit r3 with
        | some (lvl, ':' :: _) => some (w, lvl)
        | _ => none
      | _ => none

/-- Leftmost match of `ENV_LEVEL_PATTERN` anywhere in the line. -/
def envLevelFind : List Char → Option (List Char × LogLevel)
  | [] => none
  | c :: cs =>
    if c = ']' then
      match envLevelAfterBracket cs with
      | some r => some r
      | none => envLevelFind cs
    else envLevelFind cs

/-- Attempt of `REQUEST_ID_PATTERN = /REQ-[a-zA-Z0-9]+/` anchored here. -/
def reqIdAt (cs : List Char) : Option (List Char) :=
  if hasPfx ("REQ-".toList) cs then
    let r := cs.drop 4
    let run := r.takeWhile isAlnumCh
    if run = [] then none else some ("REQ-".toList ++ run)
  else none

/-- Leftmost match of `REQUEST_ID_PATTERN` anywhere in the line. -/
def findReqId : List Char → Option (List Char)
  | [] => none
  | c :: cs =>
    match reqIdAt (c :: cs) with
    | some r => some r
    | none => findReqId cs

/-- Fallback level detection of `parseLogData`: case-insensitive substring
search for `ERROR`, `WARN`, `INFO`, `DEBUG` in that priority order. -/
def fallbackLevel (line : List Char) : Option LogLevel :=
  let u := toUpperList line
  if containsSub ("ERROR".toList) u then some .ERROR
  else if containsSub ("WARN".toList) u then some .WARN
  else if containsSub ("INFO".toList) u then some .INFO
  else if containsSub ("DEBUG".toList) u then some .DEBUG
  else none

/-- Level and environment of an entry-opening line (lines 86-96 of the
source): the structured pattern first, the substring fallback otherwise. -/
def extractLevelEnv (line : List Char) : Option LogLevel × Option (List Char) :=
  match envLevelFind line with
  | some (env, lvl) => (some lvl, some env)
  | none => (fallbackLevel line, none)

/-! ### `cleanLogContent` -/

/-- The optional closing bracket of `CLEAN_TIMESTAMP_PATTERN`. -/
def dropCloseBr : List Char → List Char
  | ']' :: t => t
  | r => r

/-- Pattern `CLEAN_TIMESTAMP_PATTERN = /^\[?\d{4}-\d{2}-\d{2}\s\d{2}:\d{2}:\d{2}\]?\s*​/`
applied by `replace` (strip the anchored match if it exists). -/
def stripTsAttempt (r : List Char) : Option (List Char) :=
  match dtCore r with
  | some rest => some ((dropCloseBr rest).dropWhile isJsSpace)
  | none => none

def stripCleanTs (cs : List Char) : List Char :=
  match stripTsAttempt (if hasPfx ("[".toList) cs then cs.drop 1 else cs) with
  | some res => res
  | none =>
    match stripTsAttempt cs with
    | some res => res
    | none => cs

/-- Pattern `CLEAN_ENV_LEVEL_PATTERN = /^\w+\.(ERROR|WARN|INFO|DEBUG):\s*​/`. -/
def stripCleanEnvLevel (cs : List Char) : List Char :=
  let w := cs.takeWhile isWordCh
  if w = [] then cs
  else
    match cs.dropWhile isWordCh with
    | '.' :: r =>
      match matchLevelLit r with
      | some (_, ':' :: r2) => r2.dropWhile isJsSpace
      | _ => cs
    | _ => cs

/-- Pattern `CLEAN_REQUEST_ID_PATTERN = /^REQ-[a-zA-Z0-9]+\s*​/`. -/
def stripCleanReqId (cs : List Char) : List Char :=
  if hasPfx ("REQ-".toList) cs then
    let r := cs.drop 4
    let run := r.takeWhile isAlnumCh
    if run = [] then cs else (r.dropWhile isAlnumCh).dropWhile isJsSpace
  else cs

/-- Source `cleanLogContent` (lines 48-54). -/
def cleanLogContent (cs : List Char) : List Char :=
  trimChars (stripCleanReqId (stripCleanEnvLevel (stripCleanTs cs)))

/-! ### Data model -/

structure LogEntry where
  lineNumber : Nat
  content : List Char
  level : Option LogLevel := none
  timestamp : Option (List Char) := none
  requestId : Option (List Char) := none
  environment : Option (List Char) := none
deriving DecidableEq, Repr

structure RequestGroup where
  requestId : List Char
  entries : List LogEntry
  startTime : Option (List Char)
  endTime : Option (List Char)
  durationMs : Option (Option Int)
  hasErrors : Bool
  hasWarnings : Bool
  environment : Option (List Char)
  responseStatus : Option Nat
  responseErrorBody : Option (List Char)
  url : Option (List Char)
deriving DecidableEq, Repr

structure LogParserStats where
  errors : Nat
  warnings : Nat
  infos : Nat
  debugs : Nat
  total : Nat
deriving DecidableEq, Repr

/-! ### `parseLogData` -/

structure OpenEntry where
  lineNumber : Nat
  level : Option LogLevel
  timestamp : Option (List Char)
  requestId : Option (List Char)
  environment : Option (List Char)
deriving DecidableEq, Repr

def finishEntry (p : OpenEntry) (cls : List (List Char)) : LogEntry :=
  { lineNumber := p.lineNumber, content := joinNl cls, level := p.level,
    timestamp := p.timestamp, requestId := p.requestId,
    environment := p.environment }

/-- State created when line `line` (0-based index `i`) opens an entry. -/
def openFrom (i : Nat) (line ts : List Char) : OpenEntry :=
  let le := extractLevelEnv line
  { lineNumber := i + 1, level := le.1, timestamp := some ts,
    requestId := findReqId line, environment := le.2 }

/-- JavaScript blank test `!line.trim()`. -/
def isBlankLine (l : List Char) : Bool := l.all isJsSpace

/-- The `forEach` state machine of `parseLogData` (lines 65-133): `i` is the
0-based index of the next line, the optional state is the open entry together
with its accumulated content lines. -/
def parseAux (i : Nat) (st : Option (OpenEntry × List (List Char))) :
    List (List Char) → List LogEntry
  | [] =>
    match st with
    | some (p, cls) => [finishEntry p cls]
    | none => []
  | line :: rest =>
    match matchTimestamp line with
    | some ts =>
      (match st with
       | some (p, cls) => [finishEntry p cls]
       | none => []) ++
      parseAux (i + 1) (some (openFrom i line ts, [line])) rest
    | none =>
      match st with
      | some (p, cls) => parseAux (i + 1) (some (p, cls ++ [line])) rest
      | none =>
        if isBlankLine line then parseAux (i + 1) none rest
        else { lineNumber := i + 1, content := line } :: parseAux (i + 1) none rest

/-- Source `parseLogData` (lines 59-136). -/
def parseLogData (d : List Char) : List LogEntry :=
  parseAux 0 none (splitNl d)

/-! ### Deep-content markers of `groupEntriesByRequest` / `calculateStats` -/

/-- Matcher for `cleaned.match(/^<<<\s+(\d+)/)`, returning the numeric capture. -/
def shortRespStatus (cs : List Char) : Option Nat :=
  match cs with
  | '<' :: '<' :: '<' :: r =>
    if r.takeWhile isJsSpace = [] then none
    else
      let r2 := r.dropWhile isJsSpace
      let ds := r2.takeWhile isDigitCh
      if ds = [] then none else some (digitsToNat ds)
  | _ => none

/-- Matcher for `cleaned.match(/^<<<\s+(\d+)\s+(.*)/)`: status and body captures
(`.` does not match a newline). -/
def fullRespMatch (cs : List Char) : Option (Nat × List Char) :=
  match cs with
  | '<' :: '<' :: '<' :: r =>
    if r.takeWhile isJsSpace = [] then none
    else
      let r2 := r.dropWhile isJsSpace
      let ds := r2.takeWhile isDigitCh
      if ds = [] then none
      else
        let r3 := r2.dropWhile isDigitCh
        if r3.takeWhile isJsSpace = [] then none
        else
          let r4 := r3.dropWhile isJsSpace
          some (digitsToNat ds, r4.takeWhile (fun c => c ≠ '\n'))
  | _ => none

/-- The method alternation `(?:POST|GET|PUT|DELETE|PATCH)` in source order. -/
def matchMethod (cs : List Char) : Option (List Char) :=
  if hasPfx ("POST".toList) cs then some (cs.drop 4)
  else if hasPfx ("GET".toList) cs then some (cs.drop 3)
  else if hasPfx ("PUT".toList) cs then some (cs.drop 3)
  else if hasPfx ("DELETE".toList) cs then some (cs.drop 6)
  else if hasPfx ("PATCH".toList) cs then some (cs.drop 5)
  else none

/-- Matcher for `cleaned.match(/^>>>...(\S+)/)` with the method alternation,
returning the URL capture. -/
def urlOfCleaned (cs : List Char) : Option (List Char) :=
  match cs with
  | '>' :: '>' :: '>' :: r =>
    if r.takeWhile isJsSpace = [] then none
    else
      match matchMethod (r.dropWhile isJsSpace) with
      | none => none
      | some r3 =>
        if r3.takeWhile isJsSpace = [] then none
        else
          let r4 := r3.dropWhile isJsSpace
          let u := r4.takeWhile (fun c => !isJsSpace c)
          if u = [] then none else some u
  | _ => none

/-! ### The JavaScript `Date` model -/

def isLeapYear (y : Nat) : Bool :=
  (y % 4 = 0 && y % 100 ≠ 0) || y % 400 = 0

def daysInMonth (y m : Nat) : Nat :=
  if m = 2 then (if isLeapYear y then 29 else 28)
  else if m = 4 || m = 6 || m = 9 || m = 11 then 30
  else 31

/-- Days from 1970-01-01 to `y-m-d` in the proleptic Gregorian calendar. -/
def daysFromCivil (y m d : Nat) : Int :=
  let y' : Int := if m ≤ 2 then (y : Int) - 1 else (y : Int)
  let era : Int := (if 0 ≤ y' then y' else y' - 399) / 400
  let yoe : Int := y' - era * 400
  let mp : Nat := if 2 < m then m - 3 else m + 9
  let doy : Int := ((153 * mp + 2) / 5 + d - 1 : Nat)
  let doe : Int := yoe * 365 + yoe / 4 - yoe / 100 + doy
  era * 146097 + doe - 719468

/-- Parse the canonical `YYYY-MM-DD HH:MM:SS` shape into its six fields. -/
def parseTsParts (cs : List Char) :
    Option (Nat × Nat × Nat × Nat × Nat × Nat) :=
  match cs with
  | [y1, y2, y3, y4, c1, mo1, mo2, c2, d1, d2, c3,
     h1, h2, c4, mi1, mi2, c5, s1, s2] =>
    if isDigitCh y1 && isDigitCh y2 && isDigitCh y3 && isDigitCh y4 &&
       c1 = '-' && isDigitCh mo1 && isDigitCh mo2 && c2 = '-' &&
       isDigitCh d1 && isDigitCh d2 && isJsSpace c3 &&
       isDigitCh h1 && isDigitCh h2 && c4 = ':' &&
       isDigitCh mi1 && isDigitCh mi2 && c5 = ':' &&
       isDigitCh s1 && isDigitCh s2 then
      some (digitsToNat [y1, y2, y3, y4], digitsToNat [mo1, mo2],
            digitsToNat [d1, d2], digitsToNat [h1, h2],
            digitsToNat [mi1, mi2], digitsToNat [s1, s2])
    else none
  | _ => none

/-- Model of `new Date(s).getTime()`: `none` is `NaN`.  Only the canonical
timestamp shape with in-range fields is a valid date (local time read as
UTC); everything else is an invalid date. -/
def jsGetTime (cs : List Char) : Option Int :=
  (parseTsParts cs).bind fun t =>
  let y := t.1
  let mo := t.2.1
  let d := t.2.2.1
  let h := t.2.2.2.1
  let mi := t.2.2.2.2.1
  let s := t.2.2.2.2.2
  if 1 ≤ mo ∧ mo ≤ 12 ∧ 1 ≤ d ∧ d ≤ daysInMonth y mo ∧
     h ≤ 23 ∧ mi ≤ 59 ∧ s ≤ 59 then
    some (daysFromCivil y mo d * 86400000 +
          ((h * 3600 + mi * 60 + s : Nat) : Int) * 1000)
  else none

/-- The `NaN`-propagating subtraction of JavaScript numbers. -/
def jsNumSub (a b : Option Int) : Option Int :=
  match a, b with
  | some x, some y => some (x - y)
  | _, _ => none

/-! ### `groupEntriesByRequest` -/

/-- JavaScript truthiness filter for an optional string field. -/
def truthyId : Option (List Char) → Option (List Char)
  | some s => if s = [] then none else some s
  | none => none

/-- Append `e` under key `r`, keeping `Map` insertion order of keys. -/
def addToMap (m : List (List Char × List LogEntry)) (r : List Char)
    (e : LogEntry) : List (List Char × List LogEntry) :=
  match m with
  | [] => [(r, [e])]
  | (k, es) :: rest =>
    if k = r then (k, es ++ [e]) :: rest
    else (k, es) :: addToMap rest r e

/-- The grouping pass of lines 144-151 of the source. -/
def buildMap : List LogEntry → List (List Char × List LogEntry) →
    List (List Char × List LogEntry)
  | [], m => m
  | e :: es, m =>
    match truthyId e.requestId with
    | some r => buildMap es (addToMap m r e)
    | none => buildMap es m

/-- Source `entries.map(e => e.timestamp).filter(Boolean)`. -/
def groupTimestamps (es : List LogEntry) : List (List Char) :=
  es.filterMap (fun e => truthyId e.timestamp)

/-- The per-bucket derivation of lines 153-215 of the source. -/
def mkGroup (r : List Char) (es : List LogEntry) : RequestGroup :=
  let ts := groupTimestamps es
  let hasErr := es.any (fun e => e.level = some .ERROR)
  let hasWarn := es.any (fun e => e.level = some .WARN)
  let env := (es.find? (fun e => (truthyId e.environment).isSome)).bind
    (fun e => e.environment)
  let respE := es.find? (fun e => (shortRespStatus (cleanLogContent e.content)).isSome)
  let respStatus : Option Nat :=
    respE.bind (fun e => (fullRespMatch (cleanLogContent e.content)).map Prod.fst)
  let respBody : Option (List Char) :=
    respE.bind (fun e =>
      match fullRespMatch (cleanLogContent e.content) with
      | some (s, b) => if 400 ≤ s then some b else none
      | none => none)
  let reqE := es.find? (fun e => hasPfx (">>>".toList) (cleanLogContent e.content))
  let url := reqE.bind (fun e => urlOfCleaned (cleanLogContent e.content))
  let startT := ts.head?
  let endT := ts.getLast?
  let dur : Option (Option Int) :=
    match startT, endT with
    | some s, some en => some (jsNumSub (jsGetTime en) (jsGetTime s))
    | _, _ => none
  { requestId := r, entries := es, startTime := startT, endTime := endT,
    durationMs := dur,
    hasErrors := hasErr ||
      (match respStatus with
       | some s => decide (400 ≤ s)
       | none => false),
    hasWarnings := hasWarn, environment := env,
    responseStatus := respStatus, responseErrorBody := respBody, url := url }

/-- Lexicographic code-point comparison: the sign model of
`localeCompare` on canonical timestamp strings. -/
def strCmp : List Char → List Char → Int
  | [], [] => 0
  | [], _ :: _ => -1
  | _ :: _, [] => 1
  | a :: as, b :: bs =>
    if a < b then -1 else if b < a then 1 else strCmp as bs

/-- The sort comparator of lines 216-221 of the source. -/
def groupCmp (a b : RequestGroup) : Int :=
  match a.startTime, b.startTime with
  | some s, some t => strCmp t s
  | _, _ => 0

/-- Insertion into a reversed accumulator: the element bubbles past a
neighbour exactly when the comparator on that neighbour is positive. -/
def insRev (cmp : RequestGroup → RequestGroup → Int) :
    List RequestGroup → RequestGroup → List RequestGroup
  | [], e => [e]
  | y :: ys, e =>
    if 0 < cmp y e then y :: insRev cmp ys e else e :: y :: ys

/-- Stable-sort model of `Array.prototype.sort`. -/
def jsSortGroups (l : List RequestGroup) : List RequestGroup :=
  (l.foldl (insRev groupCmp) []).reverse

/-- Groups in `Map` insertion (encounter) order, before the final sort. -/
def rawGroups (l : List LogEntry) : List RequestGroup :=
  (buildMap l []).map (fun p => mkGroup p.1 p.2)

/-- Source `groupEntriesByRequest` (lines 141-222). -/
def groupEntriesByRequest (l : List LogEntry) : List RequestGroup :=
  jsSortGroups (rawGroups l)

/-! ### `calculateStats` -/

/-- Response marker with status at least 400 in the cleaned content. -/
def isFunctionalError (e : LogEntry) : Bool :=
  match shortRespStatus (cleanLogContent e.content) with
  | some s => decide (400 ≤ s)
  | none => false

/-- Source `calculateStats` (lines 227-250). -/
def statsStep (st : LogParserStats) (e : LogEntry) : LogParserStats :=
  if e.level = some .ERROR || isFunctionalError e then
    { st with errors := st.errors + 1 }
  else if e.level = some .WARN then { st with warnings := st.warnings + 1 }
  else if e.level = some .INFO then { st with infos := st.infos + 1 }
  else if e.level = some .DEBUG then { st with debugs := st.debugs + 1 }
  else st

def calculateStats (l : List LogEntry) : LogParserStats :=
  let st := l.foldl statsStep
    { errors := 0, warnings := 0, infos := 0, debugs := 0, total := 0 }
  { st with total := l.length }


/-! ### Concrete inputs used by the scenario theorems and counterexamples -/

/-- Scenario A input: two timestamped `REQ-1` lines, a request and a 200
response. -/
def scenAInput : List Char :=
  ("[2025-12-23 10:29:00] production.INFO: REQ-1 >>> GET /api/test\n" ++
   "[2025-12-23 10:29:02] production.INFO: REQ-1 <<< 200 \x7b\x22ok\x22:true\x7d").toList

/-- A 404 response with a body and no ERROR-level entry (scenario C shape). -/
def scenCInput : List Char :=
  ("[2025-12-23 10:29:00] production.INFO: REQ-2 >>> GET /api/error\n" ++
   "[2025-12-23 10:29:01] production.INFO: REQ-2 <<< 404 \x7b\x22error\x22:\x22not found\x22\x7d").toList

/-- An entry whose cleaned content is the bodiless response marker
`<<< 404`: it matches `/^<<<\s+(\d+)/` but not `/^<<<\s+(\d+)\s+(.*)/`. -/
def bodiless404Entry : LogEntry :=
  { lineNumber := 1, content := ("<<< 404").toList,
    requestId := some (("REQ-9").toList) }

/-- An entry carrying a present-but-empty `requestId` (truthiness edge). -/
def emptyIdEntry : LogEntry :=
  { lineNumber := 1, content := ("x").toList, requestId := some [] }

/-- Three entries producing, in encounter order, a group with an early
`startTime`, a group with no `startTime`, and a group with a late
`startTime`. -/
def mixedSortEntries : List LogEntry :=
  [ { lineNumber := 1, content := ("a").toList,
      requestId := some (("REQ-a").toList),
      timestamp := some (("2025-12-23 10:00:00").toList) },
    { lineNumber := 2, content := ("b").toList,
      requestId := some (("REQ-b").toList) },
    { lineNumber := 3, content := ("c").toList,
      requestId := some (("REQ-c").toList),
      timestamp := some (("2025-12-23 10:00:09").toList) } ]

/-- Two timestamped lines whose timestamps match the timestamp pattern but
are not valid wall-clock times (month 13, day 45). -/
def badDateInput : List Char :=
  ("[2025-13-45 10:00:00] production.INFO: REQ-3 a\n" ++
   "[2025-13-45 10:00:09] production.INFO: REQ-3 b").toList

/-- A bodiless `<<< 404` entry followed by a full-pattern `<<< 500 oops`
entry in the same request group. -/
def twoRespEntries : List LogEntry :=
  [ { lineNumber := 1, content := ("<<< 404").toList,
      requestId := some (("REQ-7").toList) },
    { lineNumber := 2, content := ("<<< 500 oops").toList,
      requestId := some (("REQ-7").toList) } ]

/-- A group whose timestamped entries are out of chronological order in the
middle, while the last timestamp is later than the first. -/
def disorderedEntries : List LogEntry :=
  [ { lineNumber := 1, content := ("x").toList,
      requestId := some (("REQ-4".toList)),
      timestamp := some (("2025-12-23 10:00:00").toList) },
    { lineNumber := 2, content := ("x").toList,
      requestId := some (("REQ-4".toList)),
      timestamp := some (("2025-12-23 10:00:05").toList) },
    { lineNumber := 3, content := ("x").toList,
      requestId := some (("REQ-4".toList)),
      timestamp := some (("2025-12-23 10:00:03").toList) } ]

/-- C9: on the scenario A input, `parseLogData` yields exactly two entries,
both level INFO, and `groupEntriesByRequest` yields exactly one group with
requestId `REQ-1`, url `/api/test`, responseStatus 200, `hasErrors = false`
and `durationMs = 2000`. -/
theorem scenarioA_end_to_end :
    (parseLogData scenAInput).length = 2 ∧
    (parseLogData scenAInput).map (fun e => e.level) =
      [some .INFO, some .INFO] ∧
    (groupEntriesByRequest (parseLogData scenAInput)).map
      (fun g => g.requestId) = ["REQ-1".toList] ∧
    (groupEntriesByRequest (parseLogData scenAInput)).map
      (fun g => g.url) = [some ("/api/test".toList)] ∧
    (groupEntriesByRequest (parseLogData scenAInput)).map
      (fun g => g.responseStatus) = [some 200] ∧
    (groupEntriesByRequest (parseLogData scenAInput)).map
      (fun g => g.hasErrors) = [false] ∧
    (groupEntriesByRequest (parseLogData scenAInput)).map
      (fun g => g.durationMs) = [some (some 2000)] := by
  decide

/-- C2 counterexample: `bodiless404Entry` has no declared level and its
cleaned content matches the response-status marker with status `404 ≥ 400`;
`calculateStats` classifies it as an error, yet the request group containing
it has `hasErrors = false`, because the bodiless marker fails the full
response pattern used for `responseStatus`. -/
theorem calculateStats_group_hasErrors_mismatch :
    isFunctionalError bodiless404Entry = true ∧
    shortRespStatus (cleanLogContent bodiless404Entry.content) = some 404 ∧
    bodiless404Entry.level = none ∧
    (calculateStats [bodiless404Entry]).errors = 1 ∧
    (groupEntriesByRequest [bodiless404Entry]).map (fun g => g.hasErrors) =
      [false] := by
  decide

/-- C3 counterexample: `emptyIdEntry` carries a (present) `requestId`, yet
`groupEntriesByRequest` produces no group at all for it, because the source
tests the field with JavaScript truthiness and the empty string is falsy. -/
theorem empty_requestId_dropped :
    emptyIdEntry.requestId.isSome = true ∧
    groupEntriesByRequest [emptyIdEntry] = [] := by
  decide

/-- C4 counterexample: on `mixedSortEntries` the returned groups are not in
descending `startTime` order: the group with start `10:00:00` precedes the
group with the lexically larger start `10:00:09`, because the comparator
returns `0` against the middle group that has no `startTime`. -/
theorem group_sort_not_descending :
    (groupEntriesByRequest mixedSortEntries).map
      (fun g => (g.requestId, g.startTime)) =
      [("REQ-a".toList, some ("2025-12-23 10:00:00".toList)),
       ("REQ-b".toList, none),
       ("REQ-c".toList, some ("2025-12-23 10:00:09".toList))] ∧
    strCmp ("2025-12-23 10:00:00".toList) ("2025-12-23 10:00:09".toList) < 0 := by
  decide

/-- C5 counterexample: on `badDateInput` both endpoint timestamps are present
but unparseable as wall-clock times, and `durationMs` is not absent: it is
present and carries the `NaN` of the subtraction (`some none`). -/
theorem durationMs_nan_propagated :
    jsGetTime ("2025-13-45 10:00:00".toList) = none ∧
    (groupEntriesByRequest (parseLogData badDateInput)).map
      (fun g => (g.startTime.isSome, g.endTime.isSome, g.durationMs)) =
      [(true, true, some none)] := by
  decide

/-- C6 counterexample: in `twoRespEntries` the second entry's cleaned content
matches the full response pattern with status `500`, but the group's
`responseStatus` is absent because the first entry matching the short marker
(`<<< 404`, bodiless) fails the full pattern. -/
theorem responseStatus_first_short_match_only :
    fullRespMatch (cleanLogContent (("<<< 500 oops").toList)) =
      some (500, "oops".toList) ∧
    fullRespMatch (cleanLogContent (("<<< 404").toList)) = none ∧
    shortRespStatus (cleanLogContent (("<<< 404").toList)) = some 404 ∧
    (groupEntriesByRequest twoRespEntries).map
      (fun g => (g.responseStatus, g.responseErrorBody)) = [(none, none)] := by
  decide

/-- C10 counterexample: in `disorderedEntries` the group's timestamped
entries are out of chronological order (the middle one is later than the
last), yet `durationMs` is the positive `3000`: only the first and last
timestamps enter the computation. -/
theorem durationMs_positive_despite_disorder :
    (groupEntriesByRequest disorderedEntries).map (fun g => g.durationMs) =
      [some (some 3000)] ∧
    (groupEntriesByRequest disorderedEntries).map
      (fun g => (groupTimestamps g.entries).map jsGetTime) =
      [[some 1766484000000, some 1766484005000, some 1766484003000]] ∧
    ¬ (1766484005000 : Int) ≤ 1766484003000 ∧ (0 : Int) < 3000 := by
  decide

/-! ### Specification-side segmenter (claim C1) -/

/-- Continuation lines of an open entry: everything up to (excluding) the
next line that matches the timestamp pattern. -/
def collectBlock : List (List Char) → List (List Char) × List (List Char)
  | [] => ([], [])
  | l :: ls =>
    if (matchTimestamp l).isSome then ([], l :: ls)
    else
      let p := collectBlock ls
      (l :: p.1, p.2)

theorem collectBlock_append (ls : List (List Char)) :
    (collectBlock ls).1 ++ (collectBlock ls).2 = ls := by
  induction ls with
  | nil => rfl
  | cons l ls ih =>
    simp only [collectBlock]
    split
    · rfl
    · simpa using ih

theorem collectBlock_snd_le (ls : List (List Char)) :
    (collectBlock ls).2.length ≤ ls.length := by
  induction ls with
  | nil => simp [collectBlock]
  | cons l ls ih =>
    simp only [collectBlock]
    split
    · simp
    · simpa using Nat.le_succ_of_le ih

theorem collectBlock_snd_shape (ls : List (List Char)) :
    (collectBlock ls).2 = [] ∨
    ∃ l ls', (collectBlock ls).2 = l :: ls' ∧ (matchTimestamp l).isSome := by
  induction ls with
  | nil => left; rfl
  | cons l ls ih =>
    simp only [collectBlock]
    split
    · right; exact ⟨l, ls, rfl, by assumption⟩
    · simpa using ih

/-- Specification-side segmenter: a timestamp-matching line opens an entry
absorbing its block of continuation lines; otherwise a non-blank line becomes
a minimal entry (content only) and a blank line is dropped. -/
def specSeg : Nat → List (List Char) → List LogEntry
  | _, [] => []
  | i, l :: ls =>
    match matchTimestamp l with
    | some ts =>
      let p := collectBlock ls
      finishEntry (openFrom i l ts) (l :: p.1) ::
        specSeg (i + 1 + p.1.length) p.2
    | none =>
      if isBlankLine l then specSeg (i + 1) ls
      else { lineNumber := i + 1, content := l } :: specSeg (i + 1) ls
termination_by _ ls => ls.length
decreasing_by
  all_goals simp_wf
  exact Nat.lt_succ_of_le (collectBlock_snd_le ls)

theorem parseAux_open (ls : List (List Char)) :
    ∀ (i : Nat) (p : OpenEntry) (cls : List (List Char)),
      parseAux i (some (p, cls)) ls =
        finishEntry p (cls ++ (collectBlock ls).1) ::
          specSeg (i + (collectBlock ls).1.length) (collectBlock ls).2 := by
  induction ls with
  | nil => intro i p cls; simp [parseAux, collectBlock, specSeg]
  | cons l ls ih =>
    intro i p cls
    simp only [parseAux]
    cases hts : matchTimestamp l with
    | some ts =>
      simp only [collectBlock, hts, Option.isSome_some, if_pos]
      rw [ih (i + 1) (openFrom i l ts) [l]]
      simp [specSeg, hts]
    | none =>
      simp only [collectBlock, hts, Option.isSome_none, Bool.false_eq_true,
        if_neg, not_false_eq_true]
      rw [ih (i + 1) p (cls ++ [l])]
      simp only [List.append_assoc, List.singleton_append, List.length_cons]
      have hidx : i + 1 + (collectBlock ls).1.length =
          i + ((collectBlock ls).1.length + 1) := by omega
      rw [hidx]

theorem parseAux_none (ls : List (List Char)) :
    ∀ i : Nat, parseAux i none ls = specSeg i ls := by
  induction ls with
  | nil => intro i; simp [parseAux, specSeg]
  | cons l ls ih =>
    intro i
    cases hts : matchTimestamp l with
    | some ts =>
      simp only [parseAux, hts]
      rw [parseAux_open ls (i + 1) (openFrom i l ts) [l]]
      simp [specSeg, hts]
    | none =>
      by_cases hb : isBlankLine l
      · simp only [parseAux, hts, specSeg, hb, if_true]
        exact ih (i + 1)
      · simp only [parseAux, hts, specSeg, hb, if_false]
        rw [ih (i + 1)]

theorem parseLogData_eq_specSeg (d : List Char) :
    parseLogData d = specSeg 0 (splitNl d) :=
  parseAux_none (splitNl d) 0


/-- Lines dropped by the segmenter: blank lines seen before any
timestamp-matching line; everything from the first matching line on is
kept. -/
def keepLines : List (List Char) → List (List Char)
  | [] => []
  | l :: ls =>
    if (matchTimestamp l).isSome then l :: ls
    else if isBlankLine l then keepLines ls
    else l :: keepLines ls

/-- The input lines accounted for by a list of entries. -/
def linesOf : List LogEntry → List (List Char)
  | [] => []
  | e :: es => splitNl e.content ++ linesOf es

theorem splitNl_ne_nil (d : List Char) : splitNl d ≠ [] := by
  cases d with
  | nil => simp [splitNl]
  | cons c cs =>
    simp only [splitNl]
    split
    · simp
    · split <;> simp

theorem splitNl_sep (d : List Char) : ∀ l ∈ splitNl d, '\n' ∉ l := by
  induction d with
  | nil => intro l hl; simp [splitNl] at hl; simp [hl]
  | cons c cs ih =>
    intro l hl
    by_cases hc : c = '\n'
    · simp only [splitNl, hc, if_pos] at hl
      rcases List.mem_cons.1 hl with h | h
      · simp [h]
      · exact ih l h
    · simp only [splitNl, hc, if_neg, not_false_eq_true] at hl
      rcases h0 : splitNl cs with _ | ⟨l0, ls0⟩
      · exact absurd h0 (splitNl_ne_nil cs)
      · rw [h0] at hl
        rcases List.mem_cons.1 hl with h | h
        · subst h
          intro hmem
          rcases List.mem_cons.1 hmem with h | h
          · exact hc h.symm
          · exact ih l0 (h0 ▸ List.mem_cons_self l0 ls0) h
        · exact ih l (h0 ▸ List.mem_cons_of_mem l0 h)

theorem splitNl_single (l : List Char) (h : '\n' ∉ l) : splitNl l = [l] := by
  induction l with
  | nil => rfl
  | cons c cs ih =>
    have hc : c ≠ '\n' := fun hcc => h (hcc ▸ List.mem_cons_self c cs)
    have hcs : '\n' ∉ cs := fun hm => h (List.mem_cons_of_mem c hm)
    simp only [splitNl, hc, if_neg, not_false_eq_true, ih hcs]

theorem splitNl_append (l t : List Char) (h : '\n' ∉ l) :
    splitNl (l ++ '\n' :: t) = l :: splitNl t := by
  induction l with
  | nil => simp [splitNl]
  | cons c cs ih =>
    have hc : c ≠ '\n' := fun hcc => h (hcc ▸ List.mem_cons_self c cs)
    have hcs : '\n' ∉ cs := fun hm => h (List.mem_cons_of_mem c hm)
    simp only [List.cons_append, splitNl, hc, if_neg, not_false_eq_true]
    have ih2 : splitNl (cs.append ('\n' :: t)) = cs :: splitNl t := ih hcs
    rw [ih2]

theorem splitNl_joinNl (cls : List (List Char)) (h0 : cls ≠ [])
    (h : ∀ l ∈ cls, '\n' ∉ l) : splitNl (joinNl cls) = cls := by
  induction cls with
  | nil => exact absurd rfl h0
  | cons l rest ih =>
    cases rest with
    | nil => exact splitNl_single l (h l (List.mem_cons_self l []))
    | cons l2 rest2 =>
      have hjoin : joinNl (l :: l2 :: rest2) =
          l ++ '\n' :: joinNl (l2 :: rest2) := rfl
      rw [hjoin, splitNl_append l _ (h l (List.mem_cons_self l _)),
        ih (by simp) (fun x hx => h x (List.mem_cons_of_mem l hx))]

theorem specSeg_lineNumber_gt (i : Nat) (ls : List (List Char)) :
    ∀ e ∈ specSeg i ls, i < e.lineNumber := by
  induction i, ls using specSeg.induct with
  | case1 i => simp [specSeg]
  | case2 i l ls ts hts p ih =>
    intro e he
    rw [specSeg, hts] at he
    rcases List.mem_cons.1 he with h | h
    · subst h
      exact Nat.lt_succ_self i
    · have := ih e h
      omega
  | case3 i l ls hts hb ih =>
    intro e he
    rw [specSeg, hts, if_pos hb] at he
    have := ih e he
    omega
  | case4 i l ls hts hb ih =>
    intro e he
    rw [specSeg, hts, if_neg hb] at he
    rcases List.mem_cons.1 he with h | h
    · subst h
      exact Nat.lt_succ_self i
    · have := ih e h
      omega

theorem specSeg_pairwise (i : Nat) (ls : List (List Char)) :
    ((specSeg i ls).map (fun e => e.lineNumber)).Pairwise (· < ·) := by
  induction i, ls using specSeg.induct with
  | case1 i => simp [specSeg]
  | case2 i l ls ts hts p ih =>
    rw [specSeg, hts]
    simp only [List.map_cons, List.pairwise_cons]
    refine ⟨?_, ih⟩
    intro n hn
    simp only [List.mem_map] at hn
    obtain ⟨e, he, rfl⟩ := hn
    have := specSeg_lineNumber_gt _ _ e he
    have hfin : (finishEntry (openFrom i l ts)
        (l :: (collectBlock ls).1)).lineNumber = i + 1 := rfl
    rw [hfin]
    omega
  | case3 i l ls hts hb ih =>
    rw [specSeg, hts, if_pos hb]
    exact ih
  | case4 i l ls hts hb ih =>
    rw [specSeg, hts, if_neg hb]
    simp only [List.map_cons, List.pairwise_cons]
    refine ⟨?_, ih⟩
    intro n hn
    simp only [List.mem_map] at hn
    obtain ⟨e, he, rfl⟩ := hn
    have := specSeg_lineNumber_gt _ _ e he
    omega

theorem keepLines_of_shape (ls : List (List Char))
    (h : ls = [] ∨ ∃ l ls', ls = l :: ls' ∧ (matchTimestamp l).isSome) :
    keepLines ls = ls := by
  rcases h with rfl | ⟨l, ls', rfl, hts⟩
  · rfl
  · simp [keepLines, hts]

theorem linesOf_specSeg (i : Nat) (ls : List (List Char)) :
    (∀ l ∈ ls, '\n' ∉ l) → linesOf (specSeg i ls) = keepLines ls := by
  induction i, ls using specSeg.induct with
  | case1 i => intro _; rw [specSeg]; rfl
  | case2 i l ls ts hts p ih =>
    intro h
    rw [specSeg, hts]
    have hcb : (collectBlock ls).1 ++ (collectBlock ls).2 = ls :=
      collectBlock_append ls
    have hsub : ∀ x ∈ l :: (collectBlock ls).1, '\n' ∉ x := by
      intro x hx
      rcases List.mem_cons.1 hx with rfl | hx
      · exact h x (List.mem_cons_self _ _)
      · refine h x (List.mem_cons_of_mem _ ?_)
        rw [← hcb]
        exact List.mem_append_left _ hx
    have hrest : ∀ x ∈ (collectBlock ls).2, '\n' ∉ x := by
      intro x hx
      refine h x (List.mem_cons_of_mem _ ?_)
      rw [← hcb]
      exact List.mem_append_right _ hx
    have hstep : linesOf (finishEntry (openFrom i l ts)
          (l :: (collectBlock ls).1) ::
          specSeg (i + 1 + (collectBlock ls).1.length) (collectBlock ls).2) =
        splitNl (joinNl (l :: (collectBlock ls).1)) ++
          linesOf (specSeg (i + 1 + (collectBlock ls).1.length)
            (collectBlock ls).2) := rfl
    rw [hstep, splitNl_joinNl _ (by simp) hsub, ih hrest,
      keepLines_of_shape _ (collectBlock_snd_shape ls)]
    have hkeep : keepLines (l :: ls) = l :: ls := by
      simp [keepLines, hts]
    rw [hkeep, List.cons_append, hcb]
  | case3 i l ls hts hb ih =>
    intro h
    rw [specSeg, hts, if_pos hb]
    rw [ih (fun x hx => h x (List.mem_cons_of_mem _ hx))]
    have : keepLines (l :: ls) = keepLines ls := by
      simp [keepLines, hts, hb]
    rw [this]
  | case4 i l ls hts hb ih =>
    intro h
    rw [specSeg, hts, if_neg hb]
    have hstep : linesOf (({ lineNumber := i + 1, content := l } : LogEntry) ::
          specSeg (i + 1) ls) =
        splitNl l ++ linesOf (specSeg (i + 1) ls) := rfl
    rw [hstep, splitNl_single l (h l (List.mem_cons_self _ _)),
      ih (fun x hx => h x (List.mem_cons_of_mem _ hx))]
    have : keepLines (l :: ls) = l :: keepLines ls := by
      simp [keepLines, hts, hb]
    rw [this]
    rfl

/-- C1: `parseLogData` coincides with the specification segmenter `specSeg`
(entries appear in the order of their opening lines; a line opens a new entry
iff it matches the timestamp pattern at line start; other lines are folded
into the open entry, or become minimal content-only entries when no entry is
open and the line is non-blank; blank lines with no open entry are dropped);
`lineNumber` is strictly increasing across the output, and the output lines
account exactly for the non-dropped input lines. -/
theorem parseLogData_segmentation (d : List Char) :
    parseLogData d = specSeg 0 (splitNl d) ∧
    ((parseLogData d).map (fun e => e.lineNumber)).Pairwise (· < ·) ∧
    linesOf (parseLogData d) = keepLines (splitNl d) := by
  refine ⟨parseLogData_eq_specSeg d, ?_, ?_⟩
  · rw [parseLogData_eq_specSeg]
    exact specSeg_pairwise 0 _
  · rw [parseLogData_eq_specSeg]
    exact linesOf_specSeg 0 _ (splitNl_sep d)

/-! ### Permutation facts for the sort model, and group decomposition -/

theorem insRev_perm (cmp : RequestGroup → RequestGroup → Int)
    (acc : List RequestGroup) (e : RequestGroup) :
    List.Perm (insRev cmp acc e) (e :: acc) := by
  induction acc with
  | nil => exact List.Perm.refl _
  | cons y ys ih =>
    rw [insRev]
    split
    · exact (ih.cons y).trans (List.Perm.swap e y ys)
    · exact List.Perm.refl _

theorem foldl_insRev_perm (cmp : RequestGroup → RequestGroup → Int) :
    ∀ (l acc : List RequestGroup),
      List.Perm (l.foldl (insRev cmp) acc) (l ++ acc) := by
  intro l
  induction l with
  | nil => intro acc; simp
  | cons x xs ih =>
    intro acc
    rw [List.foldl_cons]
    refine (ih (insRev cmp acc x)).trans ?_
    refine (List.Perm.append_left xs (insRev_perm cmp acc x)).trans ?_
    exact (List.perm_middle).trans (List.Perm.refl _)

theorem jsSortGroups_perm (l : List RequestGroup) :
    List.Perm (jsSortGroups l) l := by
  refine (List.reverse_perm _).trans ?_
  simpa using foldl_insRev_perm groupCmp l []

theorem mem_groups {l : List LogEntry} {g : RequestGroup}
    (hg : g ∈ groupEntriesByRequest l) :
    ∃ p ∈ buildMap l [], g = mkGroup p.1 p.2 := by
  have h1 : g ∈ rawGroups l :=
    (jsSortGroups_perm (rawGroups l)).mem_iff.1 hg
  obtain ⟨p, hp, heq⟩ := List.mem_map.1 h1
  exact ⟨p, hp, heq.symm⟩

/-! ### Field equations of `mkGroup` -/

theorem mkGroup_requestId (r : List Char) (es : List LogEntry) :
    (mkGroup r es).requestId = r := rfl

theorem mkGroup_entries (r : List Char) (es : List LogEntry) :
    (mkGroup r es).entries = es := rfl

theorem mkGroup_startTime (r : List Char) (es : List LogEntry) :
    (mkGroup r es).startTime = (groupTimestamps es).head? := rfl

theorem mkGroup_endTime (r : List Char) (es : List LogEntry) :
    (mkGroup r es).endTime = (groupTimestamps es).getLast? := rfl

theorem mkGroup_durationMs (r : List Char) (es : List LogEntry) :
    (mkGroup r es).durationMs =
      match (groupTimestamps es).head?, (groupTimestamps es).getLast? with
      | some s, some en => some (jsNumSub (jsGetTime en) (jsGetTime s))
      | _, _ => none := rfl

theorem mkGroup_responseStatus (r : List Char) (es : List LogEntry) :
    (mkGroup r es).responseStatus =
      (es.find? (fun e =>
        (shortRespStatus (cleanLogContent e.content)).isSome)).bind
      (fun e => (fullRespMatch (cleanLogContent e.content)).map Prod.fst) := rfl

theorem mkGroup_responseErrorBody (r : List Char) (es : List LogEntry) :
    (mkGroup r es).responseErrorBody =
      (es.find? (fun e =>
        (shortRespStatus (cleanLogContent e.content)).isSome)).bind
      (fun e =>
        match fullRespMatch (cleanLogContent e.content) with
        | some (s, b) => if 400 ≤ s then some b else none
        | none => none) := rfl

theorem mkGroup_url (r : List Char) (es : List LogEntry) :
    (mkGroup r es).url =
      (es.find? (fun e =>
        hasPfx (">>>".toList) (cleanLogContent e.content))).bind
      (fun e => urlOfCleaned (cleanLogContent e.content)) := rfl

theorem mkGroup_hasErrors (r : List Char) (es : List LogEntry) :
    (mkGroup r es).hasErrors =
      (es.any (fun e => e.level = some .ERROR) ||
        (match (mkGroup r es).responseStatus with
         | some s => decide (400 ≤ s)
         | none => false)) := rfl

/-! ### C5, C6, C10: derived group fields -/

/-- The unique group of the scenario A input. -/
def scenAGroup : RequestGroup :=
  mkGroup ("REQ-1".toList) (parseLogData scenAInput)

/-- The unique group of the scenario C input. -/
def scenCGroup : RequestGroup :=
  mkGroup ("REQ-2".toList) (parseLogData scenCInput)

/-- Two timestamped `REQ-5` entries in reverse chronological order. -/
def revOrderEntries : List LogEntry :=
  [ { lineNumber := 1, content := ("x").toList,
      requestId := some (("REQ-5").toList),
      timestamp := some (("2025-12-23 10:29:02").toList) },
    { lineNumber := 2, content := ("x").toList,
      requestId := some (("REQ-5").toList),
      timestamp := some (("2025-12-23 10:29:00").toList) } ]

/-- The unique group of `revOrderEntries`. -/
def revOrderGroup : RequestGroup :=
  mkGroup ("REQ-5".toList) revOrderEntries

/-- C5 (amended): `durationMs` is absent exactly when an endpoint timestamp
is absent; when both endpoints are present it is always present and equal to
the `NaN`-propagating difference of their `Date` parses — in particular a
malformed endpoint yields a present `NaN` duration (`some none`), not an
absent one.  No error is thrown (the function is total). -/
theorem durationMs_characterization (l : List LogEntry) :
    ∀ g ∈ groupEntriesByRequest l,
      (g.durationMs = none ↔ (g.startTime = none ∨ g.endTime = none)) ∧
      (∀ s en, g.startTime = some s → g.endTime = some en →
        g.durationMs = some (jsNumSub (jsGetTime en) (jsGetTime s))) ∧
      (∀ s en, g.startTime = some s → g.endTime = some en →
        (jsGetTime s = none ∨ jsGetTime en = none) →
        g.durationMs = some none) := by
  intro g hg
  obtain ⟨p, hp, rfl⟩ := mem_groups hg
  refine ⟨?_, ?_, ?_⟩
  · rw [mkGroup_durationMs, mkGroup_startTime, mkGroup_endTime]
    cases h1 : (groupTimestamps p.2).head? <;>
      cases h2 : (groupTimestamps p.2).getLast? <;> simp
  · intro s en hs hen
    rw [mkGroup_startTime] at hs
    rw [mkGroup_endTime] at hen
    rw [mkGroup_durationMs, hs, hen]
  · intro s en hs hen hnan
    rw [mkGroup_startTime] at hs
    rw [mkGroup_endTime] at hen
    rw [mkGroup_durationMs, hs, hen]
    show some (jsNumSub (jsGetTime en) (jsGetTime s)) = some none
    rcases hnan with h | h <;>
      cases hx : jsGetTime en <;> cases hy : jsGetTime s <;>
        simp_all [jsNumSub]

theorem durationMs_characterization_witness :
    scenAGroup.durationMs =
      some (jsNumSub (jsGetTime ("2025-12-23 10:29:02".toList))
        (jsGetTime ("2025-12-23 10:29:00".toList))) :=
  (durationMs_characterization (parseLogData scenAInput) scenAGroup
      (by decide)).2.1
    ("2025-12-23 10:29:00".toList) ("2025-12-23 10:29:02".toList)
    (by decide) (by decide)

/-- C6 (amended): `responseStatus` is taken from the first entry whose
cleaned content matches the short marker `^<<< \d+` by then applying the full
pattern `^<<< (\d+) (.*)` to that entry alone (absent if the full pattern
fails on it, even when a later entry matches it); `url` is taken from the
first entry whose cleaned content starts with `>>>` by applying the method
pattern to that entry alone; `responseErrorBody` is populated only when the
derived status is at least 400. -/
theorem group_derivation_first_match (l : List LogEntry) :
    ∀ g ∈ groupEntriesByRequest l,
      g.responseStatus = (g.entries.find? (fun e =>
          (shortRespStatus (cleanLogContent e.content)).isSome)).bind
        (fun e => (fullRespMatch (cleanLogContent e.content)).map Prod.fst) ∧
      g.url = (g.entries.find? (fun e =>
          hasPfx (">>>".toList) (cleanLogContent e.content))).bind
        (fun e => urlOfCleaned (cleanLogContent e.content)) ∧
      (∀ b, g.responseErrorBody = some b →
        ∃ s, g.responseStatus = some s ∧ 400 ≤ s) := by
  intro g hg
  obtain ⟨p, hp, rfl⟩ := mem_groups hg
  refine ⟨rfl, rfl, ?_⟩
  intro b hb
  rw [mkGroup_responseErrorBody] at hb
  cases hre : p.2.find? (fun e =>
      (shortRespStatus (cleanLogContent e.content)).isSome) with
  | none => rw [hre] at hb; exact absurd hb (by simp)
  | some e =>
    rw [hre] at hb
    simp only [Option.some_bind] at hb
    cases hfm : fullRespMatch (cleanLogContent e.content) with
    | none => rw [hfm] at hb; exact absurd hb (by simp)
    | some sb =>
      obtain ⟨sv, bv⟩ := sb
      rw [hfm] at hb
      have hb2 : (if 400 ≤ sv then some bv else none) = some b := hb
      by_cases h4 : 400 ≤ sv
      · refine ⟨sv, ?_, h4⟩
        rw [mkGroup_responseStatus, hre]
        simp [hfm]
      · rw [if_neg h4] at hb2
        exact absurd hb2 (by simp)

theorem group_derivation_first_match_witness :
    scenCGroup.responseStatus = (scenCGroup.entries.find? (fun e =>
        (shortRespStatus (cleanLogContent e.content)).isSome)).bind
      (fun e => (fullRespMatch (cleanLogContent e.content)).map Prod.fst) :=
  (group_derivation_first_match (parseLogData scenCInput) scenCGroup
    (by decide)).1

/-- C10 (amended): when the first and the last (truthy) timestamps of a group
both parse, `durationMs` is exactly the time of the last minus the time of
the first, with no clamping or reordering: it is negative precisely when the
last timestamp is earlier than the first (a middle out-of-order entry does
not make it negative). -/
theorem durationMs_endpoints_only (l : List LogEntry) :
    ∀ g ∈ groupEntriesByRequest l, ∀ s en t1 t2,
      (groupTimestamps g.entries).head? = some s →
      (groupTimestamps g.entries).getLast? = some en →
      jsGetTime s = some t1 → jsGetTime en = some t2 →
      g.durationMs = some (some (t2 - t1)) ∧ (t2 - t1 < 0 ↔ t2 < t1) := by
  intro g hg s en t1 t2 hs hen ht1 ht2
  obtain ⟨p, hp, rfl⟩ := mem_groups hg
  rw [mkGroup_entries] at hs hen
  constructor
  · rw [mkGroup_durationMs, hs, hen]
    show some (jsNumSub (jsGetTime en) (jsGetTime s)) = some (some (t2 - t1))
    rw [ht1, ht2]
    rfl
  · omega

theorem durationMs_endpoints_only_witness :
    revOrderGroup.durationMs =
      some (some ((1766485740000 : Int) - 1766485742000)) ∧
    ((1766485740000 : Int) - 1766485742000 < 0 ↔
      (1766485740000 : Int) < 1766485742000) :=
  durationMs_endpoints_only revOrderEntries revOrderGroup (by decide)
    ("2025-12-23 10:29:02".toList) ("2025-12-23 10:29:00".toList)
    1766485742000 1766485740000
    (by decide) (by decide) (by decide) (by decide)

/-! ### C2: functional-error classification -/

theorem statsStep_errors (st : LogParserStats) (e : LogEntry) :
    (statsStep st e).errors =
      if (decide (e.level = some .ERROR) || isFunctionalError e) = true
      then st.errors + 1 else st.errors := by
  by_cases h : (decide (e.level = some LogLevel.ERROR) ||
      isFunctionalError e) = true
  · rw [if_pos h]
    unfold statsStep
    rw [if_pos h]
  · rw [if_neg h]
    unfold statsStep
    rw [if_neg h]
    split
    · rfl
    · split
      · rfl
      · split <;> rfl

theorem statsFold_errors (l : List LogEntry) :
    ∀ st : LogParserStats,
      (l.foldl statsStep st).errors =
        st.errors + l.countP
          (fun e => decide (e.level = some .ERROR) || isFunctionalError e) := by
  induction l with
  | nil => intro st; simp
  | cons e es ih =>
    intro st
    rw [List.foldl_cons, ih, List.countP_cons, statsStep_errors]
    split <;> simp_all <;> omega

/-- C2 (amended): every entry whose cleaned content matches `^<<< (\d+)` with
status at least 400 is classified as an error by `calculateStats` regardless
of declared level; a group's `hasErrors` is the disjunction of "some entry
has level ERROR" and "the derived `responseStatus` (from the first
short-marker entry via the full pattern) is at least 400" — so a 404
response entry carrying a body with no ERROR level still yields
`stats.errors = 1` and `hasErrors = true` (scenario C), while a bodiless
marker raises the error count without raising `hasErrors`. -/
theorem functional_error_classification (l : List LogEntry) :
    (calculateStats l).errors =
      l.countP (fun e =>
        decide (e.level = some .ERROR) || isFunctionalError e) ∧
    (∀ g ∈ groupEntriesByRequest l,
      g.hasErrors = (g.entries.any (fun e => e.level = some .ERROR) ||
        (match g.responseStatus with
         | some s => decide (400 ≤ s)
         | none => false))) ∧
    (calculateStats (parseLogData scenCInput)).errors = 1 ∧
    (parseLogData scenCInput).all
      (fun e => decide (e.level ≠ some .ERROR)) = true ∧
    (groupEntriesByRequest (parseLogData scenCInput)).map
      (fun g => (g.hasErrors, g.responseStatus)) = [(true, some 404)] := by
  refine ⟨?_, ?_, by decide, by decide, by decide⟩
  · have h0 : (calculateStats l).errors =
        (l.foldl statsStep
          { errors := 0, warnings := 0, infos := 0, debugs := 0,
            total := 0 }).errors := rfl
    rw [h0, statsFold_errors]
    simp
  · intro g hg
    obtain ⟨p, hp, rfl⟩ := mem_groups hg
    exact mkGroup_hasErrors p.1 p.2

theorem functional_error_classification_witness :
    scenCGroup.hasErrors =
      (scenCGroup.entries.any (fun e => e.level = some .ERROR) ||
        (match scenCGroup.responseStatus with
         | some s => decide (400 ≤ s)
         | none => false)) :=
  (functional_error_classification (parseLogData scenCInput)).2.1
    scenCGroup (by decide)

/-! ### C3: grouping is a partition (up to JavaScript truthiness) -/

/-- Lookup in the insertion-ordered association list. -/
def findInMap : List (List Char × List LogEntry) → List Char →
    Option (List LogEntry)
  | [], _ => none
  | (k, es) :: rest, r => if k = r then some es else findInMap rest r

/-- Append entries to an optional bucket (`none` = bucket never created). -/
def optAppend : Option (List LogEntry) → List LogEntry →
    Option (List LogEntry)
  | none, [] => none
  | none, l => some l
  | some es, l => some (es ++ l)

theorem truthyId_eq_some {o : Option (List Char)} {r : List Char}
    (h : truthyId o = some r) : o = some r ∧ r ≠ [] := by
  cases o with
  | none => exact absurd h (by simp [truthyId])
  | some v =>
    by_cases hv : v = []
    · rw [truthyId, if_pos hv] at h
      exact absurd h (by simp)
    · rw [truthyId, if_neg hv] at h
      obtain rfl := Option.some.inj h
      exact ⟨rfl, hv⟩

theorem truthyId_none {o : Option (List Char)}
    (h : truthyId o = none) : o = none ∨ o = some [] := by
  cases o with
  | none => left; rfl
  | some v =>
    by_cases hv : v = []
    · right; rw [hv]
    · rw [truthyId, if_neg hv] at h
      exact absurd h (by simp)

theorem findInMap_addToMap (m : List (List Char × List LogEntry))
    (r : List Char) (e : LogEntry) (r' : List Char) :
    findInMap (addToMap m r e) r' =
      if r' = r then some ((findInMap m r).getD [] ++ [e])
      else findInMap m r' := by
  induction m with
  | nil =>
    by_cases h : r' = r
    · subst h; simp [addToMap, findInMap]
    · have h2 : r ≠ r' := fun hh => h hh.symm
      simp [addToMap, findInMap, h, h2]
  | cons p rest ih =>
    obtain ⟨k, es⟩ := p
    by_cases hk : k = r
    · subst hk
      rw [addToMap, if_pos rfl]
      by_cases h : r' = k
      · subst h; simp [findInMap]
      · have h2 : k ≠ r' := fun hh => h hh.symm
        simp [findInMap, h, h2]
    · rw [addToMap, if_neg hk]
      by_cases h : r' = k
      · subst h
        simp [findInMap, hk]
      · have h2 : k ≠ r' := fun hh => h hh.symm
        simp [findInMap, h2, hk, ih]

theorem optAppend_nil (x : Option (List LogEntry)) : optAppend x [] = x := by
  cases x with
  | none => rfl
  | some es => simp [optAppend]

theorem findInMap_buildMap (l : List LogEntry) :
    ∀ (m : List (List Char × List LogEntry)) (r : List Char), r ≠ [] →
      findInMap (buildMap l m) r =
        optAppend (findInMap m r)
          (l.filter (fun e => decide (e.requestId = some r))) := by
  induction l with
  | nil =>
    intro m r _
    simp only [buildMap, List.filter_nil, optAppend_nil]
  | cons e es ih =>
    intro m r hr
    cases hte : truthyId e.requestId with
    | some r0 =>
      obtain ⟨hreq, hr0⟩ := truthyId_eq_some hte
      simp only [buildMap, hte]
      rw [ih _ r hr, findInMap_addToMap]
      by_cases hrr : r = r0
      · subst hrr
        rw [if_pos rfl]
        have hf : (e :: es).filter (fun x => decide (x.requestId = some r)) =
            e :: es.filter (fun x => decide (x.requestId = some r)) := by
          simp [List.filter_cons, hreq]
        rw [hf]
        cases hfm : findInMap m r with
        | none => simp [optAppend]
        | some es0 => simp [optAppend]
      · rw [if_neg hrr]
        have hne : e.requestId ≠ some r := by
          rw [hreq]
          intro hc
          exact hrr (Option.some.inj hc).symm
        have hf : (e :: es).filter (fun x => decide (x.requestId = some r)) =
            es.filter (fun x => decide (x.requestId = some r)) := by
          simp [List.filter_cons, hne]
        rw [hf]
    | none =>
      have hne : e.requestId ≠ some r := by
        rcases truthyId_none hte with h | h <;> rw [h] <;> intro hc
        · exact Option.noConfusion hc
        · exact hr (Option.some.inj hc).symm
      simp only [buildMap, hte]
      rw [ih _ r hr]
      have hf : (e :: es).filter (fun x => decide (x.requestId = some r)) =
          es.filter (fun x => decide (x.requestId = some r)) := by
        simp [List.filter_cons, hne]
      rw [hf]

/-- Well-formedness of the grouping accumulator: keys are distinct and
non-empty. -/
def mapKeysOK (m : List (List Char × List LogEntry)) : Prop :=
  (m.map Prod.fst).Nodup ∧ ∀ p ∈ m, p.1 ≠ []

theorem addToMap_keys (m : List (List Char × List LogEntry)) (r : List Char)
    (e : LogEntry) :
    (addToMap m r e).map Prod.fst =
      if r ∈ m.map Prod.fst then m.map Prod.fst
      else m.map Prod.fst ++ [r] := by
  induction m with
  | nil => simp [addToMap]
  | cons p rest ih =>
    obtain ⟨k, es⟩ := p
    by_cases hk : k = r
    · subst hk
      simp [addToMap]
    · have hk2 : r ≠ k := fun hh => hk hh.symm
      rw [addToMap, if_neg hk]
      simp only [List.map_cons, List.mem_cons, hk2, false_or]
      rw [ih]
      split
      · rfl
      · rfl

theorem addToMap_mem (m : List (List Char × List LogEntry)) (r : List Char)
    (e : LogEntry) :
    ∀ p ∈ addToMap m r e, p.1 = r ∨ p ∈ m := by
  induction m with
  | nil =>
    intro p hp
    simp only [addToMap, List.mem_singleton] at hp
    left; rw [hp]
  | cons q rest ih =>
    obtain ⟨k, es⟩ := q
    intro p hp
    by_cases hk : k = r
    · subst hk
      rw [addToMap, if_pos rfl] at hp
      rcases List.mem_cons.1 hp with h | h
      · left; rw [h]
      · right; exact List.mem_cons_of_mem _ h
    · rw [addToMap, if_neg hk] at hp
      rcases List.mem_cons.1 hp with h | h
      · right; rw [h]; exact List.mem_cons_self _ _
      · rcases ih p h with h2 | h2
        · left; exact h2
        · right; exact List.mem_cons_of_mem _ h2

theorem addToMap_keysOK {m : List (List Char × List LogEntry)}
    {r : List Char} (e : LogEntry) (hr : r ≠ []) (h : mapKeysOK m) :
    mapKeysOK (addToMap m r e) := by
  constructor
  · rw [addToMap_keys]
    by_cases hmem : r ∈ m.map Prod.fst
    · rw [if_pos hmem]
      exact h.1
    · rw [if_neg hmem]
      simp only [List.nodup_append, List.nodup_singleton, true_and]
      refine ⟨h.1, ?_⟩
      intro a ha hb
      simp only [List.mem_singleton] at hb
      subst hb
      exact hmem ha
  · intro p hp
    rcases addToMap_mem m r e p hp with h2 | h2
    · rw [h2]; exact hr
    · exact h.2 p h2

theorem buildMap_keysOK (l : List LogEntry) :
    ∀ m, mapKeysOK m → mapKeysOK (buildMap l m) := by
  induction l with
  | nil => intro m hm; exact hm
  | cons e es ih =>
    intro m hm
    cases hte : truthyId e.requestId with
    | some r0 =>
      obtain ⟨_, hr0⟩ := truthyId_eq_some hte
      simp only [buildMap, hte]
      exact ih _ (addToMap_keysOK e hr0 hm)
    | none =>
      simp only [buildMap, hte]
      exact ih _ hm

theorem findInMap_of_mem {m : List (List Char × List LogEntry)}
    {r : List Char} {es : List LogEntry}
    (h : (m.map Prod.fst).Nodup) (hp : (r, es) ∈ m) :
    findInMap m r = some es := by
  induction m with
  | nil => exact absurd hp (List.not_mem_nil _)
  | cons q rest ih =>
    obtain ⟨k, es0⟩ := q
    rcases List.mem_cons.1 hp with h2 | h2
    · obtain ⟨rfl, rfl⟩ := Prod.mk.inj h2.symm
      simp [findInMap]
    · have hkr : k ≠ r := by
        intro hc
        subst hc
        have : k ∈ rest.map Prod.fst :=
          List.mem_map.2 ⟨(k, es), h2, rfl⟩
        exact (List.nodup_cons.1 h).1 this
      rw [findInMap, if_neg hkr]
      exact ih (List.nodup_cons.1 h).2 h2

theorem countP_keys (m : List (List Char × List LogEntry)) (r : List Char)
    (h : (m.map Prod.fst).Nodup) :
    m.countP (fun p => decide (p.1 = r)) =
      if (findInMap m r).isSome then 1 else 0 := by
  induction m with
  | nil => simp [findInMap]
  | cons q rest ih =>
    obtain ⟨k, es⟩ := q
    rw [List.countP_cons]
    by_cases hk : k = r
    · subst hk
      have hnotin : ¬ k ∈ rest.map Prod.fst := (List.nodup_cons.1 h).1
      have hzero : rest.countP (fun p => decide (p.1 = k)) = 0 := by
        rw [List.countP_eq_zero]
        intro p hp hdec
        exact hnotin (List.mem_map.2 ⟨p, hp, by simpa using hdec⟩)
      simp [findInMap, hzero]
    · rw [findInMap, if_neg hk]
      have := ih (List.nodup_cons.1 h).2
      simp only [this]
      simp [hk]

/-- C3 (amended): every entry carrying a non-empty `requestId` appears in
exactly one group — the group whose `requestId` equals its own — and the
group's entries are exactly the source entries with that id in source order;
there is exactly one group per distinct non-empty `requestId` occurring in
the input.  (Entries with an absent — or, by JavaScript truthiness, empty —
`requestId` appear in no group.) -/
theorem groupEntriesByRequest_partition (l : List LogEntry) :
    (∀ g ∈ groupEntriesByRequest l,
      g.requestId ≠ [] ∧
      g.entries = l.filter (fun e => decide (e.requestId = some g.requestId))) ∧
    (∀ r : List Char, r ≠ [] →
      (groupEntriesByRequest l).countP (fun g => decide (g.requestId = r)) =
        if l.any (fun e => decide (e.requestId = some r)) = true then 1
        else 0) := by
  have hwf : mapKeysOK (buildMap l []) :=
    buildMap_keysOK l [] ⟨List.nodup_nil, by simp⟩
  constructor
  · intro g hg
    obtain ⟨p, hp, rfl⟩ := mem_groups hg
    obtain ⟨r, es⟩ := p
    have hr : r ≠ [] := hwf.2 (r, es) hp
    have hfind : findInMap (buildMap l []) r = some es :=
      findInMap_of_mem hwf.1 hp
    rw [findInMap_buildMap l [] r hr] at hfind
    have hnone : findInMap [] r = none := rfl
    rw [hnone] at hfind
    refine ⟨hr, ?_⟩
    rw [mkGroup_entries, mkGroup_requestId]
    show es = l.filter (fun e => decide (e.requestId = some r))
    cases hfl : l.filter (fun e => decide (e.requestId = some r)) with
    | nil =>
      rw [hfl] at hfind
      exact absurd hfind (by simp [optAppend])
    | cons x xs =>
      rw [hfl] at hfind
      have h2 : some (x :: xs) = some es := hfind
      exact (Option.some.inj h2).symm
  · intro r hr
    show (jsSortGroups (rawGroups l)).countP
        (fun g => decide (g.requestId = r)) = _
    rw [(jsSortGroups_perm (rawGroups l)).countP_eq]
    have hmap : (rawGroups l).countP (fun g => decide (g.requestId = r)) =
        (buildMap l []).countP (fun p => decide (p.1 = r)) := by
      rw [rawGroups, List.countP_map]
      rfl
    rw [hmap, countP_keys _ _ hwf.1, findInMap_buildMap l [] r hr]
    have hnone : findInMap [] r = none := rfl
    rw [hnone]
    by_cases hany : l.any (fun e => decide (e.requestId = some r)) = true
    · rw [if_pos hany]
      obtain ⟨x, hx, hpx⟩ := List.any_eq_true.1 hany
      cases hfl : l.filter (fun e => decide (e.requestId = some r)) with
      | nil =>
        have : x ∈ l.filter (fun e => decide (e.requestId = some r)) :=
          List.mem_filter.2 ⟨hx, hpx⟩
        rw [hfl] at this
        exact absurd this (List.not_mem_nil x)
      | cons y ys => simp [optAppend]
    · rw [if_neg hany]
      cases hfl : l.filter (fun e => decide (e.requestId = some r)) with
      | nil => simp [optAppend]
      | cons y ys =>
        have hy : y ∈ l.filter (fun e => decide (e.requestId = some r)) := by
          rw [hfl]; exact List.mem_cons_self _ _
        have := List.mem_filter.1 hy
        exact absurd (List.any_eq_true.2 ⟨y, this.1, this.2⟩) hany

theorem groupEntriesByRequest_partition_witness :
    (groupEntriesByRequest (parseLogData scenAInput)).countP
        (fun g => decide (g.requestId = "REQ-1".toList)) =
      if (parseLogData scenAInput).any
          (fun e => decide (e.requestId = some ("REQ-1".toList))) = true
      then 1 else 0 :=
  (groupEntriesByRequest_partition (parseLogData scenAInput)).2
    ("REQ-1".toList) (by decide)

/-! ### C4: ordering of the sorted groups -/

theorem strCmp_self (a : List Char) : strCmp a a = 0 := by
  induction a with
  | nil => rfl
  | cons c cs ih => simp [strCmp, lt_irrefl, ih]

theorem strCmp_neg (a : List Char) : ∀ b, strCmp b a = -strCmp a b := by
  induction a with
  | nil =>
    intro b
    cases b <;> simp [strCmp]
  | cons x xs ih =>
    intro b
    cases b with
    | nil => simp [strCmp]
    | cons y ys =>
      by_cases hxy : x < y
      · have hyx : ¬ y < x := lt_asymm hxy
        simp [strCmp, hxy, hyx]
      · by_cases hyx : y < x
        · simp [strCmp, hxy, hyx]
        · simp [strCmp, hxy, hyx, ih ys]

theorem strCmp_le_trans {a : List Char} :
    ∀ {b c : List Char}, strCmp a b ≤ 0 → strCmp b c ≤ 0 → strCmp a c ≤ 0 := by
  induction a with
  | nil =>
    intro b c _ _
    cases c <;> simp [strCmp]
  | cons x xs ih =>
    intro b c h1 h2
    cases b with
    | nil => simp [strCmp] at h1
    | cons y ys =>
      cases c with
      | nil => simp [strCmp] at h2
      | cons z zs =>
        by_cases hxy : x < y
        · by_cases hyz : y < z
          · have hxz : x < z := lt_trans hxy hyz
            simp [strCmp, hxz]
          · by_cases hzy : z < y
            · rw [strCmp, if_neg hyz, if_pos hzy] at h2
              omega
            · have hyzeq : y = z :=
                le_antisymm (le_of_not_lt hzy) (le_of_not_lt hyz)
              subst hyzeq
              simp [strCmp, hxy]
        · by_cases hyx : y < x
          · rw [strCmp, if_neg hxy, if_pos hyx] at h1
            omega
          · have hxyeq : x = y :=
              le_antisymm (le_of_not_lt hyx) (le_of_not_lt hxy)
            subst hxyeq
            rw [strCmp, if_neg hxy, if_neg hyx] at h1
            by_cases hxz : x < z
            · simp [strCmp, hxz]
            · by_cases hzx : z < x
              · rw [strCmp, if_neg hxz, if_pos hzx] at h2
                omega
              · have hxzeq : x = z :=
                  le_antisymm (le_of_not_lt hzx) (le_of_not_lt hxz)
                subst hxzeq
                rw [strCmp, if_neg hxz, if_neg hzx] at h2 ⊢
                exact ih h1 h2

theorem groupCmp_antisym {a b : RequestGroup} (h : 0 < groupCmp a b) :
    groupCmp b a ≤ 0 := by
  cases ha : a.startTime with
  | none =>
    rw [groupCmp, ha] at h
    cases b.startTime <;> simp at h
  | some sa =>
    cases hb : b.startTime with
    | none =>
      rw [groupCmp, ha, hb] at h
      simp at h
    | some sb =>
      rw [groupCmp, ha, hb] at h ⊢
      show strCmp sa sb ≤ 0
      have h2 : (0 : Int) < strCmp sb sa := h
      rw [strCmp_neg sa sb] at h2
      omega

theorem groupCmp_trans {a b c : RequestGroup}
    (ha : a.startTime.isSome = true) (hb : b.startTime.isSome = true)
    (hc : c.startTime.isSome = true)
    (h1 : groupCmp a b ≤ 0) (h2 : groupCmp b c ≤ 0) : groupCmp a c ≤ 0 := by
  obtain ⟨sa, hsa⟩ := Option.isSome_iff_exists.1 ha
  obtain ⟨sb, hsb⟩ := Option.isSome_iff_exists.1 hb
  obtain ⟨sc, hsc⟩ := Option.isSome_iff_exists.1 hc
  rw [groupCmp, hsa, hsb] at h1
  rw [groupCmp, hsb, hsc] at h2
  rw [groupCmp, hsa, hsc]
  show strCmp sc sa ≤ 0
  exact strCmp_le_trans (a := sc) (b := sb) (c := sa) h2 h1

theorem insRev_pairwise {acc : List RequestGroup} {e : RequestGroup}
    (hP : ∀ x ∈ acc, x.startTime.isSome = true)
    (he : e.startTime.isSome = true)
    (h : acc.Pairwise (fun a b => groupCmp b a ≤ 0)) :
    (insRev groupCmp acc e).Pairwise (fun a b => groupCmp b a ≤ 0) := by
  induction acc with
  | nil => simp [insRev]
  | cons y ys ih =>
    obtain ⟨hy, hys⟩ := List.pairwise_cons.1 h
    rw [insRev]
    by_cases hcmp : 0 < groupCmp y e
    · rw [if_pos hcmp]
      refine List.pairwise_cons.2
        ⟨?_, ih (fun x hx => hP x (List.mem_cons_of_mem _ hx)) hys⟩
      intro w hw
      have hw2 : w = e ∨ w ∈ ys := by
        have := (insRev_perm groupCmp ys e).mem_iff.1 hw
        simpa using this
      rcases hw2 with rfl | hw2
      · exact groupCmp_antisym hcmp
      · exact hy w hw2
    · rw [if_neg hcmp]
      refine List.pairwise_cons.2 ⟨?_, h⟩
      intro w hw
      rcases List.mem_cons.1 hw with rfl | hw2
      · exact le_of_not_lt hcmp
      · exact groupCmp_trans
          (hP w (List.mem_cons_of_mem _ hw2))
          (hP y (List.mem_cons_self _ _)) he
          (hy w hw2) (le_of_not_lt hcmp)

theorem foldl_insRev_pairwise :
    ∀ (l acc : List RequestGroup),
      (∀ x ∈ l, x.startTime.isSome = true) →
      (∀ x ∈ acc, x.startTime.isSome = true) →
      acc.Pairwise (fun a b => groupCmp b a ≤ 0) →
      (l.foldl (insRev groupCmp) acc).Pairwise
        (fun a b => groupCmp b a ≤ 0) := by
  intro l
  induction l with
  | nil => intro acc _ _ hp; exact hp
  | cons x xs ih =>
    intro acc hl hacc hp
    rw [List.foldl_cons]
    refine ih _ (fun z hz => hl z (List.mem_cons_of_mem _ hz)) ?_ ?_
    · intro z hz
      have hz2 : z = x ∨ z ∈ acc := by
        have := (insRev_perm groupCmp acc x).mem_iff.1 hz
        simpa using this
      rcases hz2 with rfl | hz2
      · exact hl z (List.mem_cons_self _ _)
      · exact hacc z hz2
    · exact insRev_pairwise hacc (hl x (List.mem_cons_self _ _)) hp

theorem jsSortGroups_sorted (l : List RequestGroup)
    (h : ∀ x ∈ l, x.startTime.isSome = true) :
    (jsSortGroups l).Pairwise (fun a b => groupCmp a b ≤ 0) := by
  rw [jsSortGroups, List.pairwise_reverse]
  exact foldl_insRev_pairwise l [] h (by simp) (by simp)

theorem insRev_filter (P : RequestGroup → Bool)
    (H : ∀ y e : RequestGroup, P y = true → P e = true → groupCmp y e ≤ 0)
    (acc : List RequestGroup) (e : RequestGroup) :
    (insRev groupCmp acc e).filter P =
      if P e then e :: acc.filter P else acc.filter P := by
  induction acc with
  | nil =>
    rw [insRev]
    by_cases hPe : P e = true <;> simp [List.filter, hPe]
  | cons y ys ih =>
    rw [insRev]
    by_cases hcmp : 0 < groupCmp y e
    · rw [if_pos hcmp]
      by_cases hPe : P e = true
      · have hPy : ¬ P y = true := by
          intro hPy
          have := H y e hPy hPe
          omega
        rw [List.filter_cons, ih]
        simp [hPy, hPe, List.filter_cons]
      · rw [List.filter_cons, ih]
        simp [hPe, List.filter_cons]
    · rw [if_neg hcmp]
      by_cases hPe : P e = true
      · simp [List.filter_cons, hPe]
      · simp [List.filter_cons, hPe]

theorem foldl_insRev_filter (P : RequestGroup → Bool)
    (H : ∀ y e : RequestGroup, P y = true → P e = true → groupCmp y e ≤ 0) :
    ∀ (l acc : List RequestGroup),
      (l.foldl (insRev groupCmp) acc).filter P =
        (l.filter P).reverse ++ acc.filter P := by
  intro l
  induction l with
  | nil => intro acc; simp
  | cons x xs ih =>
    intro acc
    rw [List.foldl_cons, ih, insRev_filter P H]
    by_cases hPx : P x = true
    · simp [hPx, List.filter_cons, List.reverse_cons, List.append_assoc]
    · simp [hPx, List.filter_cons]

theorem jsSortGroups_filter (P : RequestGroup → Bool)
    (H : ∀ y e : RequestGroup, P y = true → P e = true → groupCmp y e ≤ 0)
    (l : List RequestGroup) :
    (jsSortGroups l).filter P = l.filter P := by
  rw [jsSortGroups, List.filter_reverse, foldl_insRev_filter P H]
  simp

/-- C4 (amended): when every produced group has a `startTime`, the returned
groups are in descending lexical `startTime` order; groups with a given
`startTime` value always retain their relative insertion (encounter) order,
and so do groups lacking `startTime` — but when timestamped and
untimestamped groups are mixed, the global descending guarantee fails (see
the counterexample). -/
theorem group_sort_ordering (l : List LogEntry) :
    ((∀ g ∈ rawGroups l, g.startTime.isSome = true) →
      (groupEntriesByRequest l).Pairwise (fun a b =>
        ∀ sa sb, a.startTime = some sa → b.startTime = some sb →
          strCmp sb sa ≤ 0)) ∧
    (∀ s : List Char,
      (groupEntriesByRequest l).filter
          (fun g => decide (g.startTime = some s)) =
        (rawGroups l).filter (fun g => decide (g.startTime = some s))) ∧
    ((groupEntriesByRequest l).filter
        (fun g => decide (g.startTime = none)) =
      (rawGroups l).filter (fun g => decide (g.startTime = none))) := by
  refine ⟨?_, ?_, ?_⟩
  · intro h
    have hs := jsSortGroups_sorted (rawGroups l) h
    refine hs.imp ?_
    intro a b hab sa sb hsa hsb
    rw [groupCmp, hsa, hsb] at hab
    exact hab
  · intro s
    refine jsSortGroups_filter _ ?_ (rawGroups l)
    intro y e hy he2
    have hy2 : y.startTime = some s := of_decide_eq_true hy
    have he3 : e.startTime = some s := of_decide_eq_true he2
    have h3 : groupCmp y e = strCmp s s := by
      rw [groupCmp, hy2, he3]
    rw [h3, strCmp_self]
  · refine jsSortGroups_filter _ ?_ (rawGroups l)
    intro y e hy _
    have hy2 : y.startTime = none := of_decide_eq_true hy
    cases he3 : e.startTime with
    | none =>
      have h3 : groupCmp y e = 0 := by rw [groupCmp, hy2, he3]
      rw [h3]
    | some se =>
      have h3 : groupCmp y e = 0 := by rw [groupCmp, hy2, he3]
      rw [h3]

theorem group_sort_ordering_witness :
    (groupEntriesByRequest (parseLogData scenAInput)).Pairwise (fun a b =>
      ∀ sa sb, a.startTime = some sa → b.startTime = some sb →
        strCmp sb sa ≤ 0) :=
  (group_sort_ordering (parseLogData scenAInput)).1 (by decide)

/-! ### C7: `cleanLogContent` strips prefixes -/

theorem expectCh_suffix {c : Char} {cs r : List Char}
    (h : expectCh c cs = some r) : r <:+ cs := by
  cases cs with
  | nil => exact absurd h (by simp [expectCh])
  | cons x xs =>
    rw [expectCh] at h
    by_cases hx : x = c
    · rw [if_pos hx] at h
      obtain rfl := Option.some.inj h
      exact List.suffix_cons x xs
    · rw [if_neg hx] at h
      exact absurd h (by simp)

theorem expectSp_suffix {cs r : List Char} (h : expectSp cs = some r) :
    r <:+ cs := by
  cases cs with
  | nil => exact absurd h (by simp [expectSp])
  | cons x xs =>
    rw [expectSp] at h
    by_cases hx : isJsSpace x = true
    · rw [if_pos hx] at h
      obtain rfl := Option.some.inj h
      exact List.suffix_cons x xs
    · rw [if_neg hx] at h
      exact absurd h (by simp)

theorem takeDigitsN_suffix :
    ∀ {n : Nat} {cs : List Char} {p : List Char × List Char},
      takeDigitsN n cs = some p → p.2 <:+ cs := by
  intro n
  induction n with
  | zero =>
    intro cs p h
    rw [takeDigitsN] at h
    obtain rfl := Option.some.inj h
    exact List.suffix_refl _
  | succ n ih =>
    intro cs p h
    cases cs with
    | nil => exact absurd h (by simp [takeDigitsN])
    | cons c cs =>
      rw [takeDigitsN] at h
      by_cases hc : isDigitCh c = true
      · rw [if_pos hc] at h
        obtain ⟨q, hq, heq⟩ := Option.map_eq_some'.1 h
        have := ih hq
        rw [← heq]
        exact this.trans (List.suffix_cons c cs)
      · rw [if_neg hc] at h
        exact absurd h (by simp)

theorem dtCore_suffix {cs r : List Char} (h : dtCore cs = some r) :
    r <:+ cs := by
  rw [dtCore] at h
  obtain ⟨p1, h1, h⟩ := Option.bind_eq_some.1 h
  obtain ⟨r2, h2, h⟩ := Option.bind_eq_some.1 h
  obtain ⟨p3, h3, h⟩ := Option.bind_eq_some.1 h
  obtain ⟨r4, h4, h⟩ := Option.bind_eq_some.1 h
  obtain ⟨p5, h5, h⟩ := Option.bind_eq_some.1 h
  obtain ⟨r6, h6, h⟩ := Option.bind_eq_some.1 h
  obtain ⟨p7, h7, h⟩ := Option.bind_eq_some.1 h
  obtain ⟨r8, h8, h⟩ := Option.bind_eq_some.1 h
  obtain ⟨p9, h9, h⟩ := Option.bind_eq_some.1 h
  obtain ⟨r10, h10, h⟩ := Option.bind_eq_some.1 h
  obtain ⟨p11, h11, heq⟩ := Option.map_eq_some'.1 h
  rw [← heq]
  exact ((((((((((takeDigitsN_suffix h11).trans
    (expectCh_suffix h10)).trans
    (takeDigitsN_suffix h9)).trans
    (expectCh_suffix h8)).trans
    (takeDigitsN_suffix h7)).trans
    (expectSp_suffix h6)).trans
    (takeDigitsN_suffix h5)).trans
    (expectCh_suffix h4)).trans
    (takeDigitsN_suffix h3)).trans
    (expectCh_suffix h2)).trans
    (takeDigitsN_suffix h1)

theorem dropCloseBr_suffix (r : List Char) : dropCloseBr r <:+ r := by
  unfold dropCloseBr
  split
  · exact List.suffix_cons ']' _
  · exact List.suffix_refl _

theorem stripTsAttempt_suffix {r res : List Char}
    (h : stripTsAttempt r = some res) : res <:+ r := by
  rw [stripTsAttempt] at h
  cases hdt : dtCore r with
  | none => rw [hdt] at h; exact absurd h (by simp)
  | some rest =>
    rw [hdt] at h
    obtain rfl := Option.some.inj h
    exact ((List.dropWhile_suffix _).trans
      (dropCloseBr_suffix rest)).trans (dtCore_suffix hdt)

theorem stripCleanTs_suffix (cs : List Char) : stripCleanTs cs <:+ cs := by
  rw [stripCleanTs]
  cases ha : stripTsAttempt
      (if hasPfx ("[".toList) cs then cs.drop 1 else cs) with
  | some res =>
    have h1 : res <:+ (if hasPfx ("[".toList) cs then cs.drop 1 else cs) :=
      stripTsAttempt_suffix ha
    have h2 : (if hasPfx ("[".toList) cs then cs.drop 1 else cs) <:+ cs := by
      split
      · exact List.drop_suffix 1 cs
      · exact List.suffix_refl _
    exact h1.trans h2
  | none =>
    cases hb : stripTsAttempt cs with
    | some res => exact stripTsAttempt_suffix hb
    | none => exact List.suffix_refl _

theorem matchLevelLit_suffix {cs : List Char} {lvl : LogLevel}
    {r : List Char} (h : matchLevelLit cs = some (lvl, r)) : r <:+ cs := by
  rw [matchLevelLit] at h
  split at h
  · obtain ⟨_, rfl⟩ := Prod.mk.inj (Option.some.inj h)
    exact List.drop_suffix _ _
  · split at h
    · obtain ⟨_, rfl⟩ := Prod.mk.inj (Option.some.inj h)
      exact List.drop_suffix _ _
    · split at h
      · obtain ⟨_, rfl⟩ := Prod.mk.inj (Option.some.inj h)
        exact List.drop_suffix _ _
      · split at h
        · obtain ⟨_, rfl⟩ := Prod.mk.inj (Option.some.inj h)
          exact List.drop_suffix _ _
        · exact absurd h (by simp)

theorem stripCleanEnvLevel_suffix (cs : List Char) :
    stripCleanEnvLevel cs <:+ cs := by
  rw [stripCleanEnvLevel]
  split
  · exact List.suffix_refl _
  · split
    · next r hdrop =>
      split
      · next lvl r2 hml =>
        have h1 : r2.dropWhile isJsSpace <:+ ':' :: r2 :=
          (List.dropWhile_suffix _).trans (List.suffix_cons ':' r2)
        have h2 : (':' :: r2) <:+ r := matchLevelLit_suffix hml
        have h3 : r <:+ '.' :: r := List.suffix_cons '.' r
        have h4 : ('.' :: r) <:+ cs := by
          rw [← hdrop]
          exact List.dropWhile_suffix _
        exact ((h1.trans h2).trans h3).trans h4
      · exact List.suffix_refl _
    · exact List.suffix_refl _

theorem stripCleanReqId_suffix (cs : List Char) :
    stripCleanReqId cs <:+ cs := by
  rw [stripCleanReqId]
  split
  · show (if List.takeWhile isAlnumCh (cs.drop 4) = [] then cs
        else List.dropWhile isJsSpace
          (List.dropWhile isAlnumCh (cs.drop 4))) <:+ cs
    split
    · exact List.suffix_refl _
    · exact ((List.dropWhile_suffix _).trans
        (List.dropWhile_suffix _)).trans (List.drop_suffix 4 cs)
  · exact List.suffix_refl _

/-- C7: `cleanLogContent` only ever removes a prefix (one optional timestamp,
then one optional `env.LEVEL:` tag, then one optional request-id token, each
stripped at most once, in that fixed order) and then trims: the result is
the trim of a suffix of the input; and on scenario B's input it returns
`boom`. -/
theorem cleanLogContent_strips_prefixes :
    (∀ s : List Char, ∃ t, t <:+ s ∧ cleanLogContent s = trimChars t) ∧
    cleanLogContent
        ("[2025-12-23 10:29:01] production.ERROR: REQ-1 boom".toList) =
      "boom".toList := by
  constructor
  · intro s
    refine ⟨stripCleanReqId (stripCleanEnvLevel (stripCleanTs s)), ?_, rfl⟩
    exact ((stripCleanReqId_suffix _).trans
      (stripCleanEnvLevel_suffix _)).trans (stripCleanTs_suffix s)
  · decide

/-! ### C8: level extraction of entry-opening lines -/

theorem specSeg_entry_fields (i : Nat) (ls : List (List Char)) :
    (∀ l ∈ ls, '\n' ∉ l) →
    ∀ e ∈ specSeg i ls, e.timestamp.isSome = true →
      ∃ line, (splitNl e.content).head? = some line ∧
        (matchTimestamp line).isSome = true ∧
        e.level = (extractLevelEnv line).1 ∧
        e.environment = (extractLevelEnv line).2 ∧
        e.requestId = findReqId line := by
  induction i, ls using specSeg.induct with
  | case1 i =>
    intro _ e he
    rw [specSeg] at he
    exact absurd he (List.not_mem_nil e)
  | case2 i l ls ts hts p ih =>
    intro h e he hts2
    rw [specSeg, hts] at he
    rcases List.mem_cons.1 he with rfl | he2
    · refine ⟨l, ?_, by simp [hts], rfl, rfl, rfl⟩
      have hcb : (collectBlock ls).1 ++ (collectBlock ls).2 = ls :=
        collectBlock_append ls
      have hsub : ∀ x ∈ l :: (collectBlock ls).1, '\n' ∉ x := by
        intro x hx
        rcases List.mem_cons.1 hx with rfl | hx
        · exact h x (List.mem_cons_self _ _)
        · refine h x (List.mem_cons_of_mem _ ?_)
          rw [← hcb]
          exact List.mem_append_left _ hx
      have hcont : (finishEntry (openFrom i l ts)
          (l :: (collectBlock ls).1)).content =
          joinNl (l :: (collectBlock ls).1) := rfl
      rw [hcont, splitNl_joinNl _ (by simp) hsub]
      rfl
    · refine ih ?_ e he2 hts2
      intro x hx
      refine h x (List.mem_cons_of_mem _ ?_)
      rw [← collectBlock_append ls]
      exact List.mem_append_right _ hx
  | case3 i l ls hts hb ih =>
    intro h e he hts2
    rw [specSeg, hts, if_pos hb] at he
    exact ih (fun x hx => h x (List.mem_cons_of_mem _ hx)) e he hts2
  | case4 i l ls hts hb ih =>
    intro h e he hts2
    rw [specSeg, hts, if_neg hb] at he
    rcases List.mem_cons.1 he with rfl | he2
    · simp at hts2
    · exact ih (fun x hx => h x (List.mem_cons_of_mem _ hx)) e he2 hts2

/-- The scenario E input: a timestamped line containing the substring `warn`
(case-insensitively) but no structured `env.LEVEL:` tag. -/
def scenEInput : List Char :=
  "[2025-12-23 10:29:00] warning: low disk space".toList

/-- The single entry parsed from the scenario E input. -/
def scenEEntry : LogEntry :=
  { lineNumber := 1, content := scenEInput, level := some .WARN,
    timestamp := some ("2025-12-23 10:29:00".toList) }

/-- C8: for every parsed entry that opened on a timestamped line, if the
structured `] env.LEVEL:` pattern does not match anywhere on that opening
line (the first line of the entry's content), the level is the
case-insensitive priority substring fallback (`ERROR`, `WARN`, `INFO`,
`DEBUG`, first found wins, absent if none is found) and the environment
stays absent; on the scenario E line the fallback yields `WARN`. -/
theorem opening_line_level_fallback (d : List Char) :
    (∀ e ∈ parseLogData d, e.timestamp.isSome = true →
      ∃ line, (splitNl e.content).head? = some line ∧
        (envLevelFind line = none →
          e.level = fallbackLevel line ∧ e.environment = none)) ∧
    (parseLogData scenEInput).map (fun e => (e.level, e.environment)) =
      [(some .WARN, none)] := by
  constructor
  · intro e he hts
    rw [parseLogData_eq_specSeg] at he
    obtain ⟨line, h1, _, h3, h4, _⟩ :=
      specSeg_entry_fields 0 _ (splitNl_sep d) e he hts
    refine ⟨line, h1, ?_⟩
    intro henv
    have hext : extractLevelEnv line = (fallbackLevel line, none) := by
      rw [extractLevelEnv, henv]
    rw [h3, h4, hext]
    exact ⟨rfl, rfl⟩
  · decide

theorem opening_line_level_fallback_witness :
    ∃ line, (splitNl scenEEntry.content).head? = some line ∧
      (envLevelFind line = none →
        scenEEntry.level = fallbackLevel line ∧
        scenEEntry.environment = none) :=
  (opening_line_level_fallback scenEInput).1 scenEEntry (by decide) (by decide)

end LogLab
